import Mathlib

/-!
Verification of the cargo dependency-usage analyzer (`src/main.rs`).

The program reads the declared dependencies of a cargo package, scans every
`.rs` file under `src` with a fixed battery of eight regular expressions plus
a macro-only allowlist, accumulates a set of used identifier names (reconciled
through a hyphen-to-underscore name mapping), and prints a report of the
dependencies that were never seen.

This file gives a shallow embedding of that program: strings are Lean
`String`s, the regex battery is embedded by an executable regex parser and
backtracking matcher over the exact eight pattern strings, `HashSet` becomes
`Finset String`, and `HashMap` becomes an association list with
insert-overwrites semantics.  ASCII inputs are assumed for the whitespace
classes (Rust's `char::is_whitespace` and the regex `\s`/`\w` classes also
cover non-ASCII code points, which never occur in the inputs considered here).
-/

namespace CargoDep

/-- ASCII whitespace recognised by Rust's `char::is_whitespace` and by the
regex class `\s`: space, tab, newline, vertical tab, form feed, carriage
return. -/
def rustWs (c : Char) : Bool :=
  c = ' ' || c = '\t' || c = '\n' || c = '\x0b' || c = '\x0c' || c = '\r'

/-- Remove `p` from the front of `s` once; `none` if `p` is not there.
This is the single-step core of Rust's `str::strip_prefix`-like matching. -/
def stripOnce : List Char → List Char → Option (List Char)
  | [], s => some s
  | _ :: _, [] => none
  | p :: ps, c :: cs => if p = c then stripOnce ps cs else none

/-- Fuel-driven repetition of `stripOnce`, used to model Rust's
`str::trim_start_matches`, which removes *all* successive occurrences of the
pattern from the front. -/
def stripRep (p : List Char) : Nat → List Char → List Char
  | 0, s => s
  | n + 1, s =>
    match stripOnce p s with
    | some s2 => stripRep p n s2
    | none => s

/-- Rust `str::trim_start_matches p`: remove every successive leading
occurrence of `p`. -/
def stripAllL (p s : List Char) : List Char :=
  stripRep p s.length s

/-- Rust `str::trim` (ASCII fragment): drop leading and trailing whitespace. -/
def trimL (s : List Char) : List Char :=
  ((s.dropWhile rustWs).reverse.dropWhile rustWs).reverse

/-- Rust `str::trim` on `String`. -/
def trimS (s : String) : String :=
  String.mk (trimL s.data)

/-- Rust `s.starts_with pre` on strings. -/
def startsWithStr (s pre : String) : Bool :=
  (stripOnce pre.data s.data).isSome

/-- `pat` occurs somewhere in `s` (Rust `str::contains` with a literal
pattern). -/
def hasSubL (pat : List Char) : List Char → Bool
  | [] => (stripOnce pat []).isSome
  | c :: cs => (stripOnce pat (c :: cs)).isSome || hasSubL pat cs

/-- Rust `content.contains(pat)` for literal `pat`. -/
def containsStr (s pat : String) : Bool :=
  hasSubL pat.data s.data

/-- `dep.name.replace('-', "_")` from `main`: the identifier form of a
canonical dependency name. -/
def underscoreName (s : String) : String :=
  String.mk (s.data.map fun c => if c = '-' then '_' else c)

/-- `HashMap::insert` on the association-list model of `name_mappings`:
an existing binding of the key is overwritten. -/
def insertMapping (m : List (String × String)) (k v : String) :
    List (String × String) :=
  (m.filter fun pr => pr.1 != k) ++ [(k, v)]

/-- The `name_mappings` map built in `main` (lines 12–18): for each declared
dependency name, bind its underscore form to the original name. -/
def buildNameMappings (names : List String) : List (String × String) :=
  names.foldl (fun m n => insertMapping m (underscoreName n) n) []

/-- `HashMap::get` on the association-list model. -/
def mapLookup (m : List (String × String)) (k : String) : Option String :=
  (m.find? fun pr => pr.1 == k).map Prod.snd

/-- Lines 112–116 of `scan_for_usage`: take the mapped original name when the
token is a known underscore form, otherwise the token itself. -/
def reconcile (m : List (String × String)) (k : String) : String :=
  (mapLookup m k).getD k

/-- Lines 101–105 of `scan_for_usage`:
`name.trim().trim_start_matches("crate::").trim_start_matches("self::")
.trim_start_matches("::")` (in exactly this order). -/
def cleanNameL (s : List Char) : List Char :=
  stripAllL "::".data
    (stripAllL "self::".data (stripAllL "crate::".data (trimL s)))

/-- `clean_name` computed for a `String` token. -/
def cleanNameS (s : String) : String :=
  String.mk (cleanNameL s.data)

/-- Lines 107–110 of `scan_for_usage`: a cleaned token is kept when it is
non-empty and starts with neither `super` nor `crate`. -/
def keepTok (c : String) : Bool :=
  !(c == "") && !startsWithStr c "super" && !startsWithStr c "crate"

/-- The body of the token loop of `scan_for_usage` (lines 100–118): clean the
token, drop it if rejected, otherwise insert the reconciled name into the
used set. -/
def processTok (nm : List (String × String)) (used : Finset String)
    (tok : String) : Finset String :=
  let c := cleanNameS tok
  if keepTok c then insert (reconcile nm c) used else used

/-- The fixed macro-only allowlist of `scan_for_usage` (line 124). -/
def macroCrates : List String := ["anyhow", "thiserror", "lazy_static", "serde"]

/-- Lines 125–131 of `scan_for_usage`: for each allowlist crate, a literal
`name!` or `use name::` substring marks the crate used unconditionally. -/
def allowlistStep (content : String) (u : Finset String) (mc : String) :
    Finset String :=
  if containsStr content (mc ++ "!") || containsStr content ("use " ++ mc ++ "::")
  then insert mc u else u

/-- The whole allowlist pass over one unit of source text. -/
def allowlistPass (content : String) (used : Finset String) : Finset String :=
  macroCrates.foldl (allowlistStep content) used

/-! ### The regex battery

`scan_for_usage` compiles eight fixed pattern strings with `Regex::new` and
iterates their non-overlapping matches.  We embed the relevant regex
fragment: character classes, escapes `\s`/`\w` and escaped metacharacters,
capturing and non-capturing groups, and the postfix quantifiers `*`, `+`,
`?`.  Matching is leftmost-first with greedy backtracking, the semantics the
`regex` crate documents for these constructs. -/

mutual

inductive RAtom : Type where
  | cls : Bool → List (Char × Char) → RAtom
  | grp : Option Nat → List RPiece → RAtom

inductive RPiece : Type where
  | once : RAtom → RPiece
  | star : RAtom → RPiece
  | plus : RAtom → RPiece
  | opt : RAtom → RPiece

end

/-- The regex class `\s` (ASCII fragment). -/
def wsClass : List (Char × Char) :=
  [(' ', ' '), ('\t', '\t'), ('\n', '\n'), ('\x0b', '\x0b'),
   ('\x0c', '\x0c'), ('\r', '\r')]

/-- The regex class `\w` (ASCII fragment). -/
def wordClass : List (Char × Char) :=
  [('0', '9'), ('A', 'Z'), ('a', 'z'), ('_', '_')]

/-- Character-class membership, with negation flag. -/
def inClass (neg : Bool) (rs : List (Char × Char)) (c : Char) : Bool :=
  neg != rs.any fun r => r.1 ≤ c && c ≤ r.2

/-- Parse the items of a bracketed character class after the opening `[`
(and after an optional `^`), up to the closing `]`. -/
def parseClsItems : Nat → List Char → Option (List (Char × Char) × List Char)
  | 0, _ => none
  | _ + 1, [] => none
  | n + 1, s =>
    match s with
    | ']' :: rest => some ([], rest)
    | c :: '-' :: d :: rest =>
      if d = ']' then some ([(c, c), ('-', '-')], rest)
      else
        match parseClsItems n rest with
        | some (items, r) => some ((c, d) :: items, r)
        | none => none
    | c :: rest =>
      match parseClsItems n rest with
      | some (items, r) => some ((c, c) :: items, r)
      | none => none
    | [] => none

mutual

/-- Parse a regex sequence until the end of input or an unmatched `)`.
`gc` counts the capturing groups opened so far. -/
def parseSeq : Nat → Nat → List Char → Option (List RPiece × Nat × List Char)
  | 0, _, _ => none
  | _ + 1, gc, [] => some ([], gc, [])
  | n + 1, gc, s =>
    match s with
    | ')' :: _ => some ([], gc, s)
    | _ =>
      match parseAtom n gc s with
      | none => none
      | some (a, gc2, r) =>
        let pr : RPiece × List Char :=
          match r with
          | '*' :: t => (RPiece.star a, t)
          | '+' :: t => (RPiece.plus a, t)
          | '?' :: t => (RPiece.opt a, t)
          | _ => (RPiece.once a, r)
        match parseSeq n gc2 pr.2 with
        | some (ps, gc3, r3) => some (pr.1 :: ps, gc3, r3)
        | none => none

/-- Parse one regex atom: an escape, a character class, a group, or a
literal character. -/
def parseAtom : Nat → Nat → List Char → Option (RAtom × Nat × List Char)
  | 0, _, _ => none
  | _ + 1, gc, '\\' :: c :: rest =>
    if c = 's' then some (RAtom.cls false wsClass, gc, rest)
    else if c = 'w' then some (RAtom.cls false wordClass, gc, rest)
    else some (RAtom.cls false [(c, c)], gc, rest)
  | n + 1, gc, '[' :: '^' :: rest =>
    match parseClsItems n rest with
    | some (items, r) => some (RAtom.cls true items, gc, r)
    | none => none
  | n + 1, gc, '[' :: rest =>
    match parseClsItems n rest with
    | some (items, r) => some (RAtom.cls false items, gc, r)
    | none => none
  | n + 1, gc, '(' :: '?' :: ':' :: rest =>
    match parseSeq n gc rest with
    | some (ps, gc2, ')' :: r2) => some (RAtom.grp none ps, gc2, r2)
    | _ => none
  | n + 1, gc, '(' :: rest =>
    match parseSeq n (gc + 1) rest with
    | some (ps, gc2, ')' :: r2) => some (RAtom.grp (some (gc + 1)) ps, gc2, r2)
    | _ => none
  | _ + 1, gc, c :: rest =>
    if c = '*' || c = '+' || c = '?' || c = ')' || c = ']' then none
    else some (RAtom.cls false [(c, c)], gc, rest)
  | _ + 1, _, [] => none

end

/-- `Regex::new`: parse a whole pattern string. -/
def compileRegex (p : String) : Option (List RPiece) :=
  match parseSeq (2 * p.length + 8) 0 p.data with
  | some (ps, _, []) => some ps
  | _ => none

mutual

/-- All ways to match a piece sequence at the front of `s`, in
backtracking-preference order.  Each result is the remaining input paired
with the recorded `(group index, captured text)` pairs. -/
def matchPieces : Nat → List RPiece → List Char →
    List (List Char × List (Nat × List Char))
  | 0, _, _ => []
  | _ + 1, [], s => [(s, [])]
  | n + 1, p :: ps, s =>
    (matchPiece n p s).flatMap fun pr =>
      (matchPieces n ps pr.1).map fun qr => (qr.1, pr.2 ++ qr.2)

/-- All ways to match one quantified piece at the front of `s`. -/
def matchPiece : Nat → RPiece → List Char →
    List (List Char × List (Nat × List Char))
  | 0, _, _ => []
  | n + 1, RPiece.once a, s => matchAtom n a s
  | n + 1, RPiece.star a, s => matchStar n a s
  | n + 1, RPiece.plus a, s =>
    (matchAtom n a s).flatMap fun pr =>
      (matchStar n a pr.1).map fun qr => (qr.1, pr.2 ++ qr.2)
  | n + 1, RPiece.opt a, s => matchAtom n a s ++ [(s, [])]

/-- Greedy `*`: longer repetitions are preferred; empty-width repetitions
are cut off. -/
def matchStar : Nat → RAtom → List Char →
    List (List Char × List (Nat × List Char))
  | 0, _, _ => []
  | n + 1, a, s =>
    ((matchAtom n a s).flatMap fun pr =>
      if pr.1.length < s.length then
        (matchStar n a pr.1).map fun qr => (qr.1, pr.2 ++ qr.2)
      else []) ++ [(s, [])]

/-- All ways to match one atom at the front of `s`; a capturing group
records the text it spans. -/
def matchAtom : Nat → RAtom → List Char →
    List (List Char × List (Nat × List Char))
  | 0, _, _ => []
  | _ + 1, RAtom.cls _ _, [] => []
  | _ + 1, RAtom.cls neg rs, c :: rest =>
    if inClass neg rs c then [(rest, [])] else []
  | n + 1, RAtom.grp idx ps, s =>
    (matchPieces n ps s).map fun pr =>
      match idx with
      | some g => (pr.1, (g, s.take (s.length - pr.1.length)) :: pr.2)
      | none => pr

end

/-- Group-1 content of a match, mirroring `cap.get(1)`. -/
def grp1 (caps : List (Nat × List Char)) : Option (List Char) :=
  (caps.find? fun pr => pr.1 == 1).map Prod.snd

/-- The preferred (leftmost-first, greedy) match of the pattern anchored at
the current position: group-1 content and the input remaining after the
match, if the pattern matches here. -/
def reMatchAt (r : List RPiece) (s : List Char) :
    Option (Option (List Char) × List Char) :=
  match matchPieces (s.length + 100) r s with
  | [] => none
  | pr :: _ => some (grp1 pr.2, pr.1)

/-- `captures_iter`: scan left to right, taking successive non-overlapping
preferred matches and collecting the group-1 captures. -/
def scanCapturesAux (r : List RPiece) : Nat → List Char → List (List Char)
  | 0, _ => []
  | _ + 1, [] => []
  | n + 1, c :: cs =>
    match reMatchAt r (c :: cs) with
    | some (cap?, rest) =>
      let next := if rest.length < cs.length + 1 then rest else cs
      match cap? with
      | some cap => cap :: scanCapturesAux r n next
      | none => scanCapturesAux r n next
    | none => scanCapturesAux r n cs

/-- All group-1 captures of a pattern over a unit of source text. -/
def patCaptures (r : List RPiece) (content : List Char) : List (List Char) :=
  scanCapturesAux r content.length content

/-- The eight pattern strings of `scan_for_usage` (lines 77–94), verbatim. -/
def patternStrings : List String :=
  [ "use\\s+([a-zA-Z_][a-zA-Z0-9_]*)\\s*::"
  , "use\\s+([a-zA-Z_][a-zA-Z0-9_]*)(?:\\s+as\\s+[a-zA-Z_][a-zA-Z0-9_]*)?\\s*;"
  , "extern\\s+crate\\s+([a-zA-Z_][a-zA-Z0-9_]*)"
  , "#\\[derive\\(([^)]*)\\)\\]"
  , "([a-zA-Z_][a-zA-Z0-9_]*)::\\w+"
  , "([a-zA-Z_][a-zA-Z0-9_]*)!\\s*[(\x7b]"
  , "mod\\s+([a-zA-Z_][a-zA-Z0-9_]*)\\s*;"
  , ":\\s*([a-zA-Z_][a-zA-Z0-9_]*)::" ]

/-- The compiled battery (each compilation is proved to succeed below). -/
def compiledPatterns : List (List RPiece) :=
  patternStrings.map fun p => (compileRegex p).getD []

/-- Rust `str::split(',')`: the comma-separated segments, keeping empty
segments (an empty input yields one empty segment). -/
def splitComma : List Char → List (List Char)
  | [] => [[]]
  | c :: cs =>
    if c = ',' then [] :: splitComma cs
    else
      match splitComma cs with
      | t :: ts => (c :: t) :: ts
      | [] => [[c]]

/-- The full token stream of one `scan_for_usage` call: for each pattern in
order, every group-1 capture, each split on `,` exactly as
`m.as_str().split(',')` does. -/
def allCapturedTokens (content : String) : List String :=
  ((compiledPatterns.map fun r => patCaptures r content.data).flatten).flatMap
    fun cap => (splitComma cap).map String.mk

/-- `scan_for_usage` (lines 72–132): run every pattern's token through the
clean/reject/reconcile pipeline, then the macro-only allowlist pass. -/
def scan_for_usage (content : String) (used : Finset String)
    (nm : List (String × String)) : Finset String :=
  allowlistPass content ((allCapturedTokens content).foldl (processTok nm) used)

/-- The scan loop of `main` (lines 21–28) over the contents of the `.rs`
files found, starting from the empty used set. -/
def collectUsedTexts (nm : List (String × String)) (texts : List String) :
    Finset String :=
  texts.foldl (fun u t => scan_for_usage t u nm) ∅

/-- The per-dependency data kept by `analyze_dependency`. -/
structure DependencyInfo where
  version : String
  features : List String
deriving DecidableEq

/-- One flagged entry of the report (lines 43–53 of `main`). -/
structure ReportEntry where
  name : String
  marker : String
  version : String
  features : List String
  hints : List String
deriving DecidableEq

/-- The fixed four-item manual-verification checklist printed for every
flagged dependency. -/
def verificationHints : List String :=
  [ "  1. Check for macro usage"
  , "  2. Look for #[derive(...)] usage"
  , "  3. Review build.rs dependencies"
  , "  4. Check conditional compilation flags" ]

/-- Lines 34–54 of `main`, for a single dependency: skipped entirely when the
name or its underscore form is in the used set, otherwise one full report
entry. -/
def reportEntry (used : Finset String) (dep : String × DependencyInfo) :
    Option ReportEntry :=
  if dep.1 ∈ used ∨ underscoreName dep.1 ∈ used then none
  else some ⟨dep.1, "POTENTIALLY UNUSED", dep.2.version, dep.2.features,
    verificationHints⟩

/-- The report body: the dependency loop of `main` in iteration order. -/
def reportEntries (deps : List (String × DependencyInfo))
    (used : Finset String) : List ReportEntry :=
  deps.filterMap (reportEntry used)

/-- Rust `{:?}` debug rendering of the feature-flag `Vec<String>`. -/
def featuresRepr (fs : List String) : String :=
  "[" ++ String.intercalate ", " (fs.map fun f => "\"" ++ f ++ "\"") ++ "]"

/-- The printed lines of one flagged entry (`println!` calls, lines 43–53). -/
def entryLines (e : ReportEntry) : List String :=
  [ ""
  , e.name ++ " (" ++ e.marker ++ ")"
  , "Version: " ++ e.version
  , "Feature flags: " ++ featuresRepr e.features
  , "⚠️  This dependency might be removable. Verify:" ] ++ e.hints

/-- The complete printed report: two-line header preceded by a blank line
(`println!("\nDependency Analysis Report:")`), then every entry. -/
def reportLines (deps : List (String × DependencyInfo))
    (used : Finset String) : List String :=
  ["", "Dependency Analysis Report:", "=========================="] ++
    (reportEntries deps used).flatMap entryLines

/-! ### The spec-side reading of the qualifier stripping (claim C3)

The specification describes the cleanup as removing *any* leading qualifier
(`crate::`, `self::`, `::`) repeatedly until none remains, in whatever order
the qualifiers are nested.  This definition follows the spec's words; it is
compared against the `clean_name` chain actually implemented. -/

/-- One spec-side stripping step: remove whichever of the three qualifiers is
in front, if any. -/
def specStripStep (s : List Char) : Option (List Char) :=
  match stripOnce "crate::".data s with
  | some r => some r
  | none =>
    match stripOnce "self::".data s with
    | some r => some r
    | none => stripOnce "::".data s

/-- Iterate `specStripStep` to a fixed point (the fuel is an upper bound on
the number of possible steps). -/
def specFullStripRep : Nat → List Char → List Char
  | 0, s => s
  | n + 1, s =>
    match specStripStep s with
    | some r => specFullStripRep n r
    | none => s

/-- The spec-side cleanup: trim, then remove nested leading qualifiers in any
order until none is left. -/
def specFullStrip (s : String) : String :=
  String.mk (specFullStripRep s.data.length (trimL s.data))

/-- Repeat a character list `n` times. -/
def repL (p : List Char) : Nat → List Char
  | 0 => []
  | n + 1 => p ++ repL p n

/-- Repeat a string `n` times. -/
def repS (p : String) : Nat → String
  | 0 => ""
  | n + 1 => p ++ repS p n

theorem repS_data (p : String) : ∀ n, (repS p n).data = repL p.data n
  | 0 => rfl
  | n + 1 => by simp [repS, repL, String.data_append, repS_data p n]

theorem string_data_inj {s t : String} (h : s.data = t.data) : s = t := by
  cases s
  cases t
  exact congrArg String.mk h

/-! ### Basic facts about `stripOnce`, `stripRep`, `stripAllL` -/

theorem stripOnce_some_iff (p : List Char) :
    ∀ s r, stripOnce p s = some r ↔ s = p ++ r := by
  induction p with
  | nil => intro s r; simp [stripOnce]
  | cons a ps ih =>
    intro s r
    cases s with
    | nil => simp [stripOnce]
    | cons c cs =>
      by_cases hac : a = c
      · subst hac
        simp [stripOnce, ih]
      · simp [stripOnce, hac, Ne.symm hac]

theorem stripOnce_refl_append (p s : List Char) : stripOnce p (p ++ s) = some s :=
  (stripOnce_some_iff p (p ++ s) s).mpr rfl

theorem stripOnce_nil_of_ne_nil {p : List Char} (hp : p ≠ []) :
    stripOnce p [] = none := by
  cases p with
  | nil => exact absurd rfl hp
  | cons a ps => rfl

theorem stripOnce_length {p s r : List Char} (h : stripOnce p s = some r) :
    s.length = p.length + r.length := by
  rw [(stripOnce_some_iff p s r).mp h]
  simp

theorem stripRep_fuel_irrel {p : List Char} (hp : p ≠ []) :
    ∀ len n m s, s.length ≤ len → s.length ≤ n → s.length ≤ m →
      stripRep p n s = stripRep p m s := by
  intro len
  induction len with
  | zero =>
    intro n m s hs hn hm
    have hnil : s = [] := List.length_eq_zero.mp (Nat.le_zero.mp hs)
    subst hnil
    cases n with
    | zero =>
      cases m with
      | zero => rfl
      | succ m => simp [stripRep, stripOnce_nil_of_ne_nil hp]
    | succ n =>
      cases m with
      | zero => simp [stripRep, stripOnce_nil_of_ne_nil hp]
      | succ m => simp [stripRep, stripOnce_nil_of_ne_nil hp]
  | succ len ih =>
    intro n m s hs hn hm
    cases n with
    | zero =>
      have hnil : s = [] := List.length_eq_zero.mp (Nat.le_zero.mp hn)
      subst hnil
      cases m with
      | zero => rfl
      | succ m => simp [stripRep, stripOnce_nil_of_ne_nil hp]
    | succ n =>
      cases m with
      | zero =>
        have hnil : s = [] := List.length_eq_zero.mp (Nat.le_zero.mp hm)
        subst hnil
        simp [stripRep, stripOnce_nil_of_ne_nil hp]
      | succ m =>
        simp only [stripRep]
        cases hso : stripOnce p s with
        | none => rfl
        | some s2 =>
          have hlen : s.length = p.length + s2.length := stripOnce_length hso
          have hplen : 1 ≤ p.length := by
            cases p with
            | nil => exact absurd rfl hp
            | cons a ps => simp
          have hs2 : s2.length + 1 ≤ s.length := by omega
          exact ih n m s2 (by omega) (by omega) (by omega)

theorem stripAllL_append_self {p : List Char} (hp : p ≠ []) (s : List Char) :
    stripAllL p (p ++ s) = stripAllL p s := by
  have hplen : 1 ≤ p.length := by
    cases p with
    | nil => exact absurd rfl hp
    | cons a ps => simp
  unfold stripAllL
  cases hN : (p ++ s).length with
  | zero =>
    exfalso
    have : p.length + s.length = 0 := by simpa [List.length_append] using hN
    omega
  | succ k =>
    simp only [stripRep, stripOnce_refl_append]
    have hlen2 : p.length + s.length = k + 1 := by
      simpa [List.length_append] using hN
    exact stripRep_fuel_irrel hp s.length k s.length s (le_refl _) (by omega)
      (le_refl _)

theorem stripAllL_of_none {p s : List Char} (h : stripOnce p s = none) :
    stripAllL p s = s := by
  unfold stripAllL
  cases hN : s.length with
  | zero => rfl
  | succ k => simp [stripRep, h]

theorem stripAllL_rep {p : List Char} (hp : p ≠ []) {s : List Char}
    (h : stripOnce p s = none) : ∀ n, stripAllL p (repL p n ++ s) = s := by
  intro n
  induction n with
  | zero => simpa [repL] using stripAllL_of_none h
  | succ n ih =>
    have : repL p (n + 1) ++ s = p ++ (repL p n ++ s) := by simp [repL]
    rw [this, stripAllL_append_self hp, ih]

theorem stripOnce_cons_ne {a b : Char} {ps cs : List Char} (h : a ≠ b) :
    stripOnce (a :: ps) (b :: cs) = none := by
  simp [stripOnce, h]

theorem startsWithStr_false_strip {s pre : String}
    (h : startsWithStr s pre = false) : stripOnce pre.data s.data = none := by
  cases hx : stripOnce pre.data s.data with
  | none => rfl
  | some r => simp [startsWithStr, hx] at h

/-! ### Claim C3 -/

/-- C3: the claim reads the cleanup as fully removing nested qualifier
prefixes in any order before the reject test.  Counterexample: on the token
`self::crate::foo` the fully-stripped result would be `foo` (accepted), but
`clean_name` strips `crate::` before `self::` and therefore leaves
`crate::foo`, which the scanner rejects. -/
theorem c3_counterexample :
    specFullStrip "self::crate::foo" = "foo" ∧
    cleanNameS "self::crate::foo" = "crate::foo" ∧
    keepTok (cleanNameS "self::crate::foo") = false := by
  decide

/-- C3 (amended): `clean_name` trims, then removes every leading `crate::`,
then every leading `self::`, then every leading `::`, in that fixed order —
qualifier runs nested in that order are removed completely, and the token is
then kept exactly when the residue is non-empty and starts with neither
`super` nor `crate`. -/
theorem c3_ordered_strip (i j k : Nat) (base : String)
    (htr : trimS (repS "crate::" i ++ repS "self::" j ++ repS "::" k ++ base)
      = repS "crate::" i ++ repS "self::" j ++ repS "::" k ++ base)
    (h1 : startsWithStr base "crate::" = false)
    (h2 : startsWithStr base "self::" = false)
    (h3 : startsWithStr base "::" = false) :
    cleanNameS (repS "crate::" i ++ repS "self::" j ++ repS "::" k ++ base)
      = base ∧
    ∀ nm u, processTok nm u
        (repS "crate::" i ++ repS "self::" j ++ repS "::" k ++ base)
      = if keepTok base then insert (reconcile nm base) u else u := by
  have hdata :
      (repS "crate::" i ++ repS "self::" j ++ repS "::" k ++ base).data
        = repL "crate::".data i ++
            (repL "self::".data j ++ (repL "::".data k ++ base.data)) := by
    simp [String.data_append, repS_data, List.append_assoc]
  have htrim :
      trimL (repS "crate::" i ++ repS "self::" j ++ repS "::" k ++ base).data
        = (repS "crate::" i ++ repS "self::" j ++ repS "::" k ++ base).data :=
    congrArg String.data htr
  have hstage1 : stripOnce "crate::".data
      (repL "self::".data j ++ (repL "::".data k ++ base.data)) = none := by
    cases j with
    | zero =>
      cases k with
      | zero => simpa [repL] using startsWithStr_false_strip h1
      | succ k =>
        show stripOnce "crate::".data ((':' :: (':' :: repL "::".data k)) ++ _) = none
        exact stripOnce_cons_ne (by decide)
    | succ j =>
      show stripOnce "crate::".data
        ((('s' :: "elf::".data) ++ repL "self::".data j) ++ _) = none
      exact stripOnce_cons_ne (by decide)
  have hstage2 : stripOnce "self::".data (repL "::".data k ++ base.data)
      = none := by
    cases k with
    | zero => simpa [repL] using startsWithStr_false_strip h2
    | succ k =>
      show stripOnce "self::".data ((':' :: (':' :: repL "::".data k)) ++ _) = none
      exact stripOnce_cons_ne (by decide)
  have hstage3 : stripOnce "::".data base.data = none :=
    startsWithStr_false_strip h3
  have hclean : cleanNameS
      (repS "crate::" i ++ repS "self::" j ++ repS "::" k ++ base) = base := by
    unfold cleanNameS cleanNameL
    rw [htrim, hdata]
    rw [stripAllL_rep (by decide) hstage1 i]
    rw [stripAllL_rep (by decide) hstage2 j]
    rw [stripAllL_rep (by decide) hstage3 k]
  refine ⟨hclean, ?_⟩
  intro nm u
  simp only [processTok, hclean]

/-- Witness for the amended C3 at `crate::self::::foo`. -/
theorem c3_ordered_strip_witness :
    cleanNameS "crate::self::::foo" = "foo" := by
  have h := (c3_ordered_strip 1 1 1 "foo" (by decide) (by decide) (by decide)
    (by decide)).1
  have e : repS "crate::" 1 ++ repS "self::" 1 ++ repS "::" 1 ++ "foo"
      = "crate::self::::foo" := by decide
  rw [e] at h
  exact h

/-! ### Insert-shaped folds

Every accumulation step of the scanner only ever inserts elements: it is of
the shape `u ↦ u ∪ (what the step contributes from the empty set)`.  All
order-independence and monotonicity facts follow from that shape. -/

theorem foldl_union_split {α : Type} (f : Finset String → α → Finset String)
    (hf : ∀ u a, f u a = u ∪ f ∅ a) :
    ∀ (l : List α) (u : Finset String), l.foldl f u = u ∪ l.foldl f ∅ := by
  intro l
  induction l with
  | nil => intro u; simp
  | cons a l ih =>
    intro u
    simp only [List.foldl_cons]
    rw [ih (f u a), ih (f ∅ a), hf u a]
    simp [Finset.union_assoc]

theorem mem_foldl_of_mem {α : Type} {f : Finset String → α → Finset String}
    (hf : ∀ u a, f u a = u ∪ f ∅ a) {x : String} {u : Finset String}
    (hx : x ∈ u) (l : List α) : x ∈ l.foldl f u := by
  rw [foldl_union_split f hf]
  exact Finset.mem_union_left _ hx

theorem foldl_perm_of_split {α : Type} (f : Finset String → α → Finset String)
    (hf : ∀ u a, f u a = u ∪ f ∅ a) {l1 l2 : List α} (h : l1.Perm l2) :
    ∀ u, l1.foldl f u = l2.foldl f u := by
  induction h with
  | nil => intro u; rfl
  | cons x _ ih =>
    intro u
    simp only [List.foldl_cons]
    exact ih _
  | swap x y l =>
    intro u
    simp only [List.foldl_cons]
    have : f (f u y) x = f (f u x) y := by
      rw [hf (f u y) x, hf u y, hf (f u x) y, hf u x]
      simp [Finset.union_assoc, Finset.union_comm (f ∅ y) (f ∅ x)]
    rw [this]
  | trans _ _ ih1 ih2 =>
    intro u
    rw [ih1, ih2]

theorem processTok_split (nm : List (String × String)) (u : Finset String)
    (tok : String) : processTok nm u tok = u ∪ processTok nm ∅ tok := by
  unfold processTok
  by_cases h : keepTok (cleanNameS tok)
  · simp [h, Finset.insert_eq, Finset.union_comm]
  · simp [h]

theorem allowlistStep_split (content : String) (u : Finset String)
    (mc : String) :
    allowlistStep content u mc = u ∪ allowlistStep content ∅ mc := by
  unfold allowlistStep
  by_cases h : (containsStr content (mc ++ "!")
      || containsStr content ("use " ++ mc ++ "::")) = true
  · simp [h, Finset.insert_eq, Finset.union_comm]
  · simp [h]

theorem allowlistPass_split (content : String) (u : Finset String) :
    allowlistPass content u = u ∪ allowlistPass content ∅ :=
  foldl_union_split (allowlistStep content) (allowlistStep_split content)
    macroCrates u

theorem scan_for_usage_split (content : String) (u : Finset String)
    (nm : List (String × String)) :
    scan_for_usage content u nm = u ∪ scan_for_usage content ∅ nm := by
  unfold scan_for_usage
  rw [allowlistPass_split content ((allCapturedTokens content).foldl (processTok nm) u)]
  rw [allowlistPass_split content ((allCapturedTokens content).foldl (processTok nm) ∅)]
  rw [foldl_union_split (processTok nm) (processTok_split nm)
    (allCapturedTokens content) u]
  simp [Finset.union_assoc]

theorem collectUsedTexts_perm (nm : List (String × String))
    {texts1 texts2 : List String} (h : texts1.Perm texts2) :
    collectUsedTexts nm texts1 = collectUsedTexts nm texts2 :=
  foldl_perm_of_split (fun u t => scan_for_usage t u nm)
    (fun u t => scan_for_usage_split t u nm) h ∅

/-! ### Claim C6 -/

/-- C6: the accumulated used set does not depend on the order in which the
source texts are scanned — any permutation of the text list folds to an
equal set. -/
theorem c6_scan_order_independent (nm : List (String × String))
    (texts1 texts2 : List String) (h : texts1.Perm texts2) :
    collectUsedTexts nm texts1 = collectUsedTexts nm texts2 :=
  collectUsedTexts_perm nm h

/-- Witness for C6 on a concrete two-file tree scanned in both orders. -/
theorem c6_scan_order_independent_witness :
    (["use alpha::x;", "beta!(1)"] : List String).Perm
        ["beta!(1)", "use alpha::x;"] ∧
    collectUsedTexts [] ["use alpha::x;", "beta!(1)"]
      = collectUsedTexts [] ["beta!(1)", "use alpha::x;"] := by
  have hp : (["use alpha::x;", "beta!(1)"] : List String).Perm
      ["beta!(1)", "use alpha::x;"] := List.Perm.swap "beta!(1)" "use alpha::x;" []
  exact ⟨hp, c6_scan_order_independent [] _ _ hp⟩

/-! ### Claim C5 -/

theorem allowlistStep_hit {content mc : String}
    (hhit : containsStr content (mc ++ "!") = true ∨
      containsStr content ("use " ++ mc ++ "::") = true) (u : Finset String) :
    allowlistStep content u mc = insert mc u := by
  unfold allowlistStep
  rcases hhit with h | h <;> simp [h]

theorem mem_allowlist_fold {content mc : String}
    (hhit : containsStr content (mc ++ "!") = true ∨
      containsStr content ("use " ++ mc ++ "::") = true) :
    ∀ (l : List String) (u : Finset String), mc ∈ l →
      mc ∈ l.foldl (allowlistStep content) u := by
  intro l
  induction l with
  | nil => intro u h; cases h
  | cons a l ih =>
    intro u h
    simp only [List.foldl_cons]
    rcases List.mem_cons.mp h with ha | hl
    · subst ha
      exact mem_foldl_of_mem (allowlistStep_split content)
        (by rw [allowlistStep_hit hhit u]; exact Finset.mem_insert_self _ _) l
    · exact ih _ hl

theorem mem_allowlistPass_of_hit {content mc : String}
    (hmc : mc ∈ macroCrates)
    (hhit : containsStr content (mc ++ "!") = true ∨
      containsStr content ("use " ++ mc ++ "::") = true) (u : Finset String) :
    mc ∈ allowlistPass content u :=
  mem_allowlist_fold hhit macroCrates u hmc

/-- C5: for each allowlist crate, a literal `name!` or `use name::` substring
in the scanned text puts that name into the used set, independently of the
general patterns, of the incoming set and of the declared dependencies. -/
theorem c5_allowlist_inserts (name content : String)
    (nm : List (String × String)) (u : Finset String)
    (hmem : name ∈ macroCrates)
    (hhit : containsStr content (name ++ "!") = true ∨
      containsStr content ("use " ++ name ++ "::") = true) :
    name ∈ scan_for_usage content u nm := by
  unfold scan_for_usage
  exact mem_allowlistPass_of_hit hmem hhit _

/-- Witness for C5: `serde` is marked used by the literal `use serde::`
substring even with no declared dependencies at all. -/
theorem c5_allowlist_inserts_witness :
    "serde" ∈ scan_for_usage "use serde::to_string;" ∅ [] :=
  c5_allowlist_inserts "serde" "use serde::to_string;" [] ∅ (by decide)
    (Or.inr (by decide))

/-! ### Claim C9 -/

/-- C9: every one of the eight fixed pattern strings compiles (the per-call
`unwrap` can never fire), and scanning is a total set-enlarging operation:
whatever the text, the scan returns the incoming set plus possibly more —
no input makes it fail. -/
theorem c9_patterns_compile_scan_total :
    (∀ p ∈ patternStrings, (compileRegex p).isSome = true) ∧
    ∀ nm u content, u ⊆ scan_for_usage content u nm := by
  constructor
  · decide
  · intro nm u content
    rw [scan_for_usage_split content u nm]
    exact Finset.subset_union_left

/-- Witness for C9 at the first pattern string and a concrete scan. -/
theorem c9_patterns_compile_scan_total_witness :
    (compileRegex "use\\s+([a-zA-Z_][a-zA-Z0-9_]*)\\s*::").isSome = true ∧
    "x" ∈ scan_for_usage "][)(" {"x"} [] :=
  ⟨c9_patterns_compile_scan_total.1 _ (by decide),
   c9_patterns_compile_scan_total.2 [] {"x"} "][)("
     (Finset.mem_singleton_self "x")⟩

/-! ### The name mapping -/

theorem find?_filter_of_imp {α : Type} (p q : α → Bool)
    (himp : ∀ x, p x = true → q x = true) :
    ∀ l : List α, (l.filter q).find? p = l.find? p := by
  intro l
  induction l with
  | nil => rfl
  | cons a l ih =>
    by_cases hq : q a = true
    · by_cases hp : p a = true
      · simp [List.filter_cons, hq, List.find?, hp]
      · simp [List.filter_cons, hq, List.find?, hp, ih]
    · have hp : p a = false := by
        cases hpa : p a with
        | false => rfl
        | true => exact absurd (himp a hpa) hq
      simp [List.filter_cons, hq, List.find?, hp, ih]

theorem mapLookup_insert_self (m : List (String × String)) (k v : String) :
    mapLookup (insertMapping m k v) k = some v := by
  unfold insertMapping mapLookup
  rw [List.find?_append]
  have h1 : (m.filter fun pr => pr.1 != k).find? (fun pr => pr.1 == k)
      = none := by
    rw [List.find?_eq_none]
    intro x hx
    have hxq := List.of_mem_filter hx
    simp only [bne_iff_ne, ne_eq] at hxq
    simp [hxq]
  rw [h1]
  simp [List.find?]

theorem mapLookup_insert_ne (m : List (String × String)) (k v k' : String)
    (h : k' ≠ k) :
    mapLookup (insertMapping m k v) k' = mapLookup m k' := by
  unfold insertMapping mapLookup
  rw [List.find?_append]
  have h2 : List.find? (fun pr => pr.1 == k') [(k, v)] = none := by
    have hk : (k == k') = false := beq_eq_false_iff_ne.mpr (Ne.symm h)
    simp [List.find?, hk]
  rw [h2]
  rw [find?_filter_of_imp (fun pr => pr.1 == k') (fun pr => pr.1 != k)
    (by intro x hx; simp only [beq_iff_eq] at hx; simp [bne_iff_ne, hx, h]) m]
  simp

theorem mem_insertMapping {m : List (String × String)} {k v : String}
    {pr : String × String} (h : pr ∈ insertMapping m k v) :
    pr ∈ m ∨ pr = (k, v) := by
  unfold insertMapping at h
  rcases List.mem_append.mp h with h1 | h1
  · exact Or.inl (List.mem_of_mem_filter h1)
  · simp at h1
    exact Or.inr h1

theorem buildNameMappings_key {names : List String} :
    ∀ pr ∈ buildNameMappings names, pr.1 = underscoreName pr.2 := by
  unfold buildNameMappings
  have aux : ∀ (l : List String) (m : List (String × String)),
      (∀ pr ∈ m, pr.1 = underscoreName pr.2) →
      ∀ pr ∈ l.foldl (fun m n => insertMapping m (underscoreName n) n) m,
        pr.1 = underscoreName pr.2 := by
    intro l
    induction l with
    | nil => intro m hm; exact hm
    | cons d l ih =>
      intro m hm
      simp only [List.foldl_cons]
      apply ih
      intro pr hpr
      rcases mem_insertMapping hpr with h1 | h1
      · exact hm pr h1
      · rw [h1]
  exact aux names [] (by intro pr hpr; cases hpr)

theorem build_lookup_some {names : List String} {k v : String}
    (hex : ∃ d ∈ names, underscoreName d = k)
    (hall : ∀ d ∈ names, underscoreName d = k → d = v) :
    mapLookup (buildNameMappings names) k = some v := by
  unfold buildNameMappings
  have aux : ∀ (l : List String) (m : List (String × String)),
      (∀ d ∈ l, underscoreName d = k → d = v) →
      ((∃ d ∈ l, underscoreName d = k) ∨ mapLookup m k = some v) →
      mapLookup (l.foldl (fun m n => insertMapping m (underscoreName n) n) m) k
        = some v := by
    intro l
    induction l with
    | nil =>
      intro m _ hdisj
      rcases hdisj with ⟨d, hd, _⟩ | hm
      · cases hd
      · exact hm
    | cons d l ih =>
      intro m hall2 hdisj
      simp only [List.foldl_cons]
      by_cases hd : underscoreName d = k
      · have hdv : d = v := hall2 d (List.mem_cons_self d l) hd
        apply ih _ (fun d' hd' => hall2 d' (List.mem_cons_of_mem d hd'))
        refine Or.inr ?_
        rw [← hd, mapLookup_insert_self, hdv]
      · apply ih _ (fun d' hd' => hall2 d' (List.mem_cons_of_mem d hd'))
        rcases hdisj with ⟨d', hd', hk'⟩ | hm
        · rcases List.mem_cons.mp hd' with h1 | h1
          · exact absurd (h1 ▸ hk') hd
          · exact Or.inl ⟨d', h1, hk'⟩
        · refine Or.inr ?_
          rw [mapLookup_insert_ne m _ d k (fun he => hd he.symm)]
          exact hm
  exact aux names [] hall (Or.inl hex)

theorem build_lookup_none {names : List String} {k : String}
    (h : ∀ d ∈ names, underscoreName d ≠ k) :
    mapLookup (buildNameMappings names) k = none := by
  unfold buildNameMappings
  have aux : ∀ (l : List String) (m : List (String × String)),
      (∀ d ∈ l, underscoreName d ≠ k) → mapLookup m k = none →
      mapLookup (l.foldl (fun m n => insertMapping m (underscoreName n) n) m) k
        = none := by
    intro l
    induction l with
    | nil => intro m _ hm; exact hm
    | cons d l ih =>
      intro m hl hm
      simp only [List.foldl_cons]
      apply ih _ (fun d' hd' => hl d' (List.mem_cons_of_mem d hd'))
      rw [mapLookup_insert_ne m _ d k
        (fun he => hl d (List.mem_cons_self d l) he.symm)]
      exact hm
  exact aux names [] h rfl

theorem build_eq_map {names : List String}
    (hnd : (names.map underscoreName).Nodup) :
    buildNameMappings names = names.map fun n => (underscoreName n, n) := by
  unfold buildNameMappings
  have aux : ∀ (l : List String) (m : List (String × String)),
      (l.map underscoreName).Nodup →
      (∀ d ∈ l, ∀ pr ∈ m, pr.1 ≠ underscoreName d) →
      l.foldl (fun m n => insertMapping m (underscoreName n) n) m
        = m ++ l.map fun n => (underscoreName n, n) := by
    intro l
    induction l with
    | nil => intro m _ _; simp
    | cons d l ih =>
      intro m hnd2 hfresh
      simp only [List.foldl_cons]
      have hins : insertMapping m (underscoreName d) d = m ++ [(underscoreName d, d)] := by
        unfold insertMapping
        have : m.filter (fun pr => pr.1 != underscoreName d) = m := by
          apply List.filter_eq_self.mpr
          intro pr hpr
          simp [bne_iff_ne]
          exact hfresh d (List.mem_cons_self d l) pr hpr
        rw [this]
      rw [hins]
      rw [ih (m ++ [(underscoreName d, d)]) (by simpa using hnd2.of_cons) ?_]
      · simp
      · intro d' hd' pr hpr
        rcases List.mem_append.mp hpr with h1 | h1
        · exact hfresh d' (List.mem_cons_of_mem d hd') pr h1
        · simp only [List.mem_singleton] at h1
          rw [h1]
          intro he
          have hmem : underscoreName d' ∈ l.map underscoreName :=
            List.mem_map_of_mem underscoreName hd'
          rw [← he] at hmem
          simp only [List.map_cons, List.nodup_cons] at hnd2
          exact hnd2.1 hmem
  rw [aux names [] hnd (by intro d _ pr hpr; cases hpr)]
  rfl

/-! ### Claim C2 -/

theorem underscore_no_hyphen (s : String) : '-' ∉ (underscoreName s).data := by
  unfold underscoreName
  intro h
  rcases List.mem_map.mp h with ⟨c, _, hc⟩
  by_cases hcc : c = '-' <;> simp [hcc] at hc

theorem underscore_eq_self_of_no_hyphen {s : String} (h : '-' ∉ s.data) :
    underscoreName s = s := by
  apply string_data_inj
  show s.data.map _ = s.data
  have hcong : ∀ c ∈ s.data, (if c = '-' then '_' else c) = id c := by
    intro c hc
    have hne : c ≠ '-' := fun he => h (he ▸ hc)
    simp [hne]
  rw [List.map_congr_left hcong, List.map_id]

theorem hyphen_mem_of_underscore_ne {s : String} (h : underscoreName s ≠ s) :
    '-' ∈ s.data := by
  by_contra hmem
  exact h (underscore_eq_self_of_no_hyphen hmem)

/-- C2: the claim promises one mapping entry *per declared dependency* and
round-tripping through the mapping for every dependency, assuming only that
canonical names are unique.  Counterexample: the declarations `foo-bar` and
`foo_bar` have distinct canonical names but the same underscore form, so the
`HashMap` insert overwrites — the mapping ends up with a single entry and
reconciling `foo_bar` no longer yields `foo-bar`. -/
theorem c2_counterexample :
    (["foo-bar", "foo_bar"] : List String).Nodup ∧
    (buildNameMappings ["foo-bar", "foo_bar"]).length = 1 ∧
    reconcile (buildNameMappings ["foo-bar", "foo_bar"])
      (underscoreName "foo-bar") ≠ "foo-bar" := by
  decide

/-- C2 (amended): when the underscore-substituted forms of the declared
names are pairwise distinct (not merely the names themselves), the mapping
has exactly one entry per declared dependency — key the underscore form,
value the canonical name — and reconciling either the canonical name or its
underscore form yields the canonical name. -/
theorem c2_normalizer_mapping (names : List String)
    (hnd : (names.map underscoreName).Nodup) (n : String) (hm : n ∈ names) :
    (buildNameMappings names).length = names.length ∧
    (underscoreName n, n) ∈ buildNameMappings names ∧
    reconcile (buildNameMappings names) (underscoreName n) = n ∧
    reconcile (buildNameMappings names) n = n := by
  have hlook : mapLookup (buildNameMappings names) (underscoreName n) = some n := by
    apply build_lookup_some ⟨n, hm, rfl⟩
    intro d hd hdn
    exact List.inj_on_of_nodup_map hnd hd hm hdn
  refine ⟨?_, ?_, ?_, ?_⟩
  · rw [build_eq_map hnd]
    simp
  · rw [build_eq_map hnd]
    exact List.mem_map_of_mem _ hm
  · unfold reconcile
    rw [hlook]
    rfl
  · by_cases he : underscoreName n = n
    · have hlook2 : mapLookup (buildNameMappings names) n = some n := by
        apply build_lookup_some ⟨n, hm, he⟩
        intro d hd hdn
        exact List.inj_on_of_nodup_map hnd hd hm (by rw [hdn, he])
      unfold reconcile
      rw [hlook2]
      rfl
    · have hh : '-' ∈ n.data := hyphen_mem_of_underscore_ne he
      have hnone : ∀ d ∈ names, underscoreName d ≠ n := by
        intro d _ hdn
        exact (hdn ▸ underscore_no_hyphen d) hh
      unfold reconcile
      rw [build_lookup_none hnone]
      rfl

/-- Witness for the amended C2 on the declarations `foo-bar`, `baz`. -/
theorem c2_normalizer_mapping_witness :
    ((["foo-bar", "baz"].map underscoreName).Nodup) ∧
    (underscoreName "foo-bar", "foo-bar") ∈ buildNameMappings ["foo-bar", "baz"] ∧
    reconcile (buildNameMappings ["foo-bar", "baz"]) "foo_bar" = "foo-bar" := by
  have h := c2_normalizer_mapping ["foo-bar", "baz"] (by decide) "foo-bar"
    (by decide)
  refine ⟨by decide, h.2.1, ?_⟩
  have e : underscoreName "foo-bar" = "foo_bar" := by decide
  rw [← e]
  exact h.2.2.1

/-! ### Claim C10 -/

theorem underscore_startsWith {s pre : String}
    (hpre : pre.data.map (fun c => if c = '-' then '_' else c) = pre.data)
    (h : startsWithStr s pre = true) :
    startsWithStr (underscoreName s) pre = true := by
  unfold startsWithStr at h ⊢
  cases hx : stripOnce pre.data s.data with
  | none => rw [hx] at h; simp at h
  | some r =>
    have hsd : s.data = pre.data ++ r := (stripOnce_some_iff _ _ _).mp hx
    have hud : (underscoreName s).data
        = pre.data ++ r.map (fun c => if c = '-' then '_' else c) := by
      show s.data.map _ = _
      rw [hsd, List.map_append, hpre]
    rw [hud, stripOnce_refl_append]
    rfl

theorem keepTok_props {c : String} (h : keepTok c = true) :
    startsWithStr c "super" = false ∧ startsWithStr c "crate" = false := by
  unfold keepTok at h
  simp only [Bool.and_eq_true, Bool.not_eq_true'] at h
  exact ⟨h.1.2, h.2⟩

theorem mapLookup_some_mem {m : List (String × String)} {k v : String}
    (h : mapLookup m k = some v) : (k, v) ∈ m := by
  unfold mapLookup at h
  cases hf : m.find? (fun pr => pr.1 == k) with
  | none => rw [hf] at h; cases h
  | some pr =>
    rw [hf] at h
    have hkey := List.find?_some hf
    have hmem : pr ∈ m := List.mem_of_find?_eq_some hf
    have h1 : pr.1 = k := by simpa using hkey
    have h2 : pr.2 = v := by simpa using h
    have : pr = (k, v) := Prod.ext h1 h2
    exact this ▸ hmem

/-- A token that starts with `super` or `crate` in either separator form. -/
def reservedStart (t : String) : Prop :=
  startsWithStr t "super" = true ∨ startsWithStr t "crate" = true

theorem reservedStart_underscore {t : String} (h : reservedStart t) :
    reservedStart (underscoreName t) := by
  rcases h with h | h
  · exact Or.inl (underscore_startsWith (by decide) h)
  · exact Or.inr (underscore_startsWith (by decide) h)

theorem reserved_notin_processTok {names : List String} {target : String}
    (hs : reservedStart target) {u : Finset String} (h : target ∉ u)
    (tok : String) : target ∉ processTok (buildNameMappings names) u tok := by
  unfold processTok
  by_cases hk : keepTok (cleanNameS tok) = true
  · simp only [hk, if_pos]
    intro hmem
    rcases Finset.mem_insert.mp hmem with he | hu
    · have hc := keepTok_props hk
      unfold reconcile at he
      cases hl : mapLookup (buildNameMappings names) (cleanNameS tok) with
      | none =>
        rw [hl] at he
        simp only [Option.getD_none] at he
        rcases hs with h1 | h1
        · rw [he] at h1
          rw [hc.1] at h1
          cases h1
        · rw [he] at h1
          rw [hc.2] at h1
          cases h1
      | some v =>
        rw [hl] at he
        simp only [Option.getD_some] at he
        have hpr : (cleanNameS tok, v) ∈ buildNameMappings names :=
          mapLookup_some_mem hl
        have hkey : cleanNameS tok = underscoreName v :=
          buildNameMappings_key _ hpr
        have hres : reservedStart (underscoreName v) :=
          reservedStart_underscore (he ▸ hs)
        rw [← hkey] at hres
        rcases hres with h1 | h1
        · rw [hc.1] at h1
          cases h1
        · rw [hc.2] at h1
          cases h1
    · exact h hu
  · simp only [Bool.not_eq_true] at hk
    simpa [hk] using h

theorem macroCrates_not_reserved :
    ∀ mc ∈ macroCrates, startsWithStr mc "super" = false ∧
      startsWithStr mc "crate" = false := by
  decide

theorem reserved_notin_scan {names : List String} {target : String}
    (hs : reservedStart target) {u : Finset String} (h : target ∉ u)
    (content : String) :
    target ∉ scan_for_usage content u (buildNameMappings names) := by
  unfold scan_for_usage allowlistPass
  have hfold1 : target ∉ (allCapturedTokens content).foldl
      (processTok (buildNameMappings names)) u := by
    have aux : ∀ (l : List String) (u : Finset String), target ∉ u →
        target ∉ l.foldl (processTok (buildNameMappings names)) u := by
      intro l
      induction l with
      | nil => intro u hu; exact hu
      | cons a l ih =>
        intro u hu
        simp only [List.foldl_cons]
        exact ih _ (reserved_notin_processTok hs hu a)
    exact aux _ u h
  have aux2 : ∀ (l : List String) (w : Finset String),
      (∀ mc ∈ l, startsWithStr mc "super" = false ∧
        startsWithStr mc "crate" = false) →
      target ∉ w → target ∉ l.foldl (allowlistStep content) w := by
    intro l
    induction l with
    | nil => intro w _ hw; exact hw
    | cons a l ih =>
      intro w hres hw
      simp only [List.foldl_cons]
      apply ih _ (fun mc hmc => hres mc (List.mem_cons_of_mem a hmc))
      unfold allowlistStep
      by_cases hcond : (containsStr content (a ++ "!")
          || containsStr content ("use " ++ a ++ "::")) = true
      · simp only [hcond, if_pos]
        intro hmem
        rcases Finset.mem_insert.mp hmem with he | hu
        · have hra := hres a (List.mem_cons_self a l)
          rcases hs with h1 | h1
          · rw [he, hra.1] at h1; cases h1
          · rw [he, hra.2] at h1; cases h1
        · exact hw hu
      · simp only [Bool.not_eq_true] at hcond
        simpa [hcond] using hw
  exact aux2 macroCrates _ macroCrates_not_reserved hfold1

/-- C10: a declared dependency whose name begins with `super` or `crate` can
never enter the used set — the reject test discards every token beginning
with those strings, the mapping can only produce such a name from an equally
reserved key, and no allowlist name is reserved — so it is always reported
as potentially unused, whatever the source tree contains. -/
theorem c10_reserved_names_always_flagged (names : List String)
    (texts : List String) (target : String)
    (hs : startsWithStr target "super" = true ∨
      startsWithStr target "crate" = true)
    (deps : List (String × DependencyInfo)) (info : DependencyInfo)
    (hmem : (target, info) ∈ deps) :
    target ∉ collectUsedTexts (buildNameMappings names) texts ∧
    underscoreName target ∉ collectUsedTexts (buildNameMappings names) texts ∧
    (⟨target, "POTENTIALLY UNUSED", info.version, info.features,
        verificationHints⟩ : ReportEntry)
      ∈ reportEntries deps (collectUsedTexts (buildNameMappings names) texts) := by
  have hnotin : ∀ t : String, reservedStart t →
      t ∉ collectUsedTexts (buildNameMappings names) texts := by
    intro t ht
    unfold collectUsedTexts
    have aux : ∀ (l : List String) (u : Finset String), t ∉ u →
        t ∉ l.foldl (fun u c => scan_for_usage c u (buildNameMappings names)) u := by
      intro l
      induction l with
      | nil => intro u hu; exact hu
      | cons a l ih =>
        intro u hu
        simp only [List.foldl_cons]
        exact ih _ (reserved_notin_scan ht hu a)
    exact aux texts ∅ (Finset.not_mem_empty t)
  have h1 : target ∉ collectUsedTexts (buildNameMappings names) texts :=
    hnotin target hs
  have h2 : underscoreName target ∉ collectUsedTexts (buildNameMappings names) texts :=
    hnotin _ (reservedStart_underscore hs)
  refine ⟨h1, h2, ?_⟩
  apply List.mem_filterMap.mpr
  refine ⟨(target, info), hmem, ?_⟩
  unfold reportEntry
  rw [if_neg]
  intro hcon
  rcases hcon with hcon | hcon
  · exact h1 hcon
  · exact h2 hcon

/-- Witness for C10: the declared dependency `superb`, directly imported by
`use superb::x;`, is still reported as potentially unused. -/
theorem c10_reserved_names_always_flagged_witness :
    "superb" ∉ collectUsedTexts (buildNameMappings ["superb"]) ["use superb::x;"] ∧
    underscoreName "superb" ∉
      collectUsedTexts (buildNameMappings ["superb"]) ["use superb::x;"] ∧
    (⟨"superb", "POTENTIALLY UNUSED", "0.1", [],
        verificationHints⟩ : ReportEntry)
      ∈ reportEntries [("superb", ⟨"0.1", []⟩)]
          (collectUsedTexts (buildNameMappings ["superb"]) ["use superb::x;"]) :=
  c10_reserved_names_always_flagged ["superb"] ["use superb::x;"] "superb"
    (Or.inl (by decide)) [("superb", ⟨"0.1", []⟩)] ⟨"0.1", []⟩ (by decide)

/-! ### Claim C1 -/

theorem reportEntry_some {used : Finset String} {p : String × DependencyInfo}
    {e : ReportEntry} (h : reportEntry used p = some e) :
    e = ⟨p.1, "POTENTIALLY UNUSED", p.2.version, p.2.features,
      verificationHints⟩ ∧ p.1 ∉ used ∧ underscoreName p.1 ∉ used := by
  unfold reportEntry at h
  by_cases hc : p.1 ∈ used ∨ underscoreName p.1 ∈ used
  · rw [if_pos hc] at h
    cases h
  · rw [if_neg hc] at h
    push_neg at hc
    exact ⟨(Option.some_inj.mp h).symm, hc.1, hc.2⟩

theorem reportEntries_name_mem {deps : List (String × DependencyInfo)}
    {used : Finset String} {e : ReportEntry}
    (h : e ∈ reportEntries deps used) : e.name ∈ deps.map Prod.fst := by
  rcases List.mem_filterMap.mp h with ⟨p, hp, he⟩
  have := (reportEntry_some he).1
  rw [this]
  exact List.mem_map_of_mem _ hp

/-- C1: a declared dependency yields exactly one report entry — the name,
the `POTENTIALLY UNUSED` marker, the version requirement, the feature list
and the four-hint checklist — precisely when neither its canonical name nor
its underscore form is in the final used set, and yields no output at all
otherwise. -/
theorem c1_report_entry_iff (deps : List (String × DependencyInfo))
    (used : Finset String) (hnd : (deps.map Prod.fst).Nodup)
    (n : String) (i : DependencyInfo) (hmem : (n, i) ∈ deps) :
    (reportEntries deps used).filter (fun e => e.name == n)
      = if n ∈ used ∨ underscoreName n ∈ used then []
        else [⟨n, "POTENTIALLY UNUSED", i.version, i.features,
          verificationHints⟩] := by
  induction deps with
  | nil => cases hmem
  | cons p rest ih =>
    have hnd2 : p.1 ∉ rest.map Prod.fst ∧ (rest.map Prod.fst).Nodup := by
      simpa [List.nodup_cons] using hnd
    rcases List.mem_cons.mp hmem with hhead | htail
    · have hp : p = (n, i) := hhead.symm
      subst hp
      have hrestnil : (List.filterMap (reportEntry used) rest).filter
          (fun e => e.name == n) = [] := by
        rw [List.filter_eq_nil_iff]
        intro e he
        have hn : e.name ∈ rest.map Prod.fst := reportEntries_name_mem he
        have : e.name ≠ n := by
          intro hen
          exact hnd2.1 (hen ▸ hn)
        simp [this]
      by_cases hc : n ∈ used ∨ underscoreName n ∈ used
      · rw [if_pos hc]
        have hhead : reportEntry used (n, i) = none := by
          unfold reportEntry
          rw [if_pos hc]
        unfold reportEntries
        rw [List.filterMap_cons, hhead]
        exact hrestnil
      · rw [if_neg hc]
        have hhead : reportEntry used (n, i) = some ⟨n, "POTENTIALLY UNUSED",
            i.version, i.features, verificationHints⟩ := by
          unfold reportEntry
          rw [if_neg hc]
        unfold reportEntries
        rw [List.filterMap_cons, hhead, List.filter_cons]
        have hn : ((⟨n, "POTENTIALLY UNUSED", i.version, i.features,
            verificationHints⟩ : ReportEntry).name == n) = true := by simp
        rw [hn]
        simp only [if_pos]
        rw [hrestnil]
    · have hne : p.1 ≠ n := by
        intro he
        have : n ∈ rest.map Prod.fst := List.mem_map_of_mem Prod.fst htail
        exact hnd2.1 (he ▸ this)
      have hih := ih hnd2.2 htail
      unfold reportEntries
      simp only [List.filterMap_cons]
      cases hre : reportEntry used p with
      | none => exact hih
      | some e =>
        have hename : e.name = p.1 := by rw [(reportEntry_some hre).1]
        rw [List.filter_cons]
        have : (e.name == n) = false := by
          rw [hename]
          exact beq_eq_false_iff_ne.mpr hne
        simp only [this, Bool.false_eq_true, if_neg, if_false]
        exact hih

/-- Witness for C1 on a two-dependency manifest with one used name. -/
theorem c1_report_entry_iff_witness :
    (reportEntries [("alpha", ⟨"1.0", []⟩), ("b-c", ⟨"2.0", ["x"]⟩)]
        {"alpha"}).filter (fun e => e.name == "b-c")
      = [⟨"b-c", "POTENTIALLY UNUSED", "2.0", ["x"], verificationHints⟩] ∧
    (reportEntries [("alpha", ⟨"1.0", []⟩), ("b-c", ⟨"2.0", ["x"]⟩)]
        {"alpha"}).filter (fun e => e.name == "alpha") = [] := by
  constructor
  · have h := c1_report_entry_iff
      [("alpha", ⟨"1.0", []⟩), ("b-c", ⟨"2.0", ["x"]⟩)] {"alpha"}
      (by decide) "b-c" ⟨"2.0", ["x"]⟩ (by decide)
    rw [if_neg (by decide)] at h
    exact h
  · have h := c1_report_entry_iff
      [("alpha", ⟨"1.0", []⟩), ("b-c", ⟨"2.0", ["x"]⟩)] {"alpha"}
      (by decide) "alpha" ⟨"1.0", []⟩ (by decide)
    rw [if_pos (by decide)] at h
    exact h

/-! ### Claim C4 -/

theorem processTok_keep (tok c : String) (hc : cleanNameS tok = c)
    (hk : keepTok c = true) (nm : List (String × String)) (u : Finset String) :
    processTok nm u tok = insert (reconcile nm c) u := by
  unfold processTok
  rw [hc, if_pos hk]

theorem reportEntries_name_not_used {deps : List (String × DependencyInfo)}
    {used : Finset String} {e : ReportEntry}
    (he : e ∈ reportEntries deps used) : e.name ∉ used := by
  rcases List.mem_filterMap.mp he with ⟨p, _, hp⟩
  have h := reportEntry_some hp
  rw [h.1]
  exact h.2.1

theorem mem_scan_of_all (nm : List (String × String)) {x t : String}
    (hscan : ∀ u, x ∈ scan_for_usage t u nm) {texts : List String}
    (ht : t ∈ texts) : x ∈ collectUsedTexts nm texts := by
  unfold collectUsedTexts
  have aux : ∀ (l : List String) (u : Finset String), t ∈ l →
      x ∈ l.foldl (fun u c => scan_for_usage c u nm) u := by
    intro l
    induction l with
    | nil => intro u h; cases h
    | cons a l ih =>
      intro u h
      simp only [List.foldl_cons]
      rcases List.mem_cons.mp h with ha | hl
      · subst ha
        exact mem_foldl_of_mem (fun u c => scan_for_usage_split c u nm)
          (hscan u) l
      · exact ih _ hl
  exact aux texts ∅ ht

/-- C4: the claim has no proviso about underscore collisions.
Counterexample: when `foo-bar` *and* `foo_bar` are both declared, the second
mapping insert overwrites the first, the token `foo_bar` reconciles to
`foo_bar`, and `foo-bar` never enters the used set even though
`use foo_bar::x;` was scanned. -/
theorem c4_counterexample :
    "foo-bar" ∈ (["foo-bar", "foo_bar"] : List String) ∧
    "foo-bar" ∉ collectUsedTexts (buildNameMappings ["foo-bar", "foo_bar"])
      ["use foo_bar::x;"] := by
  decide

/-- C4 (amended): if `foo-bar` is declared and no *other* declared name has
underscore form `foo_bar`, then scanning a text `use foo_bar::x;` puts
`foo-bar` into the used set, and no report entry carries the name `foo-bar`. -/
theorem c4_underscore_import_marks_used (names : List String)
    (h1 : "foo-bar" ∈ names)
    (h2 : ∀ n ∈ names, underscoreName n = "foo_bar" → n = "foo-bar")
    (texts : List String) (ht : "use foo_bar::x;" ∈ texts)
    (deps : List (String × DependencyInfo)) :
    "foo-bar" ∈ collectUsedTexts (buildNameMappings names) texts ∧
    ∀ e ∈ reportEntries deps (collectUsedTexts (buildNameMappings names) texts),
      e.name ≠ "foo-bar" := by
  have hrec : reconcile (buildNameMappings names) "foo_bar" = "foo-bar" := by
    unfold reconcile
    rw [build_lookup_some ⟨"foo-bar", h1, by decide⟩ h2]
    rfl
  have htoks : allCapturedTokens "use foo_bar::x;" = ["foo_bar", "foo_bar"] := by
    decide
  have hscan : ∀ u, "foo-bar" ∈
      scan_for_usage "use foo_bar::x;" u (buildNameMappings names) := by
    intro u
    unfold scan_for_usage
    rw [htoks]
    have hstep : ∀ w, processTok (buildNameMappings names) w "foo_bar"
        = insert "foo-bar" w := by
      intro w
      rw [processTok_keep "foo_bar" "foo_bar" (by decide) (by decide) _ w, hrec]
    simp only [List.foldl_cons, List.foldl_nil, hstep]
    rw [allowlistPass_split]
    exact Finset.mem_union_left _ (Finset.mem_insert_self _ _)
  have hmem : "foo-bar" ∈ collectUsedTexts (buildNameMappings names) texts :=
    mem_scan_of_all _ hscan ht
  refine ⟨hmem, ?_⟩
  intro e he hename
  exact reportEntries_name_not_used he (hename ▸ hmem)

/-- Witness for the amended C4: `foo-bar` declared alongside `other`. -/
theorem c4_underscore_import_marks_used_witness :
    "foo-bar" ∈ collectUsedTexts (buildNameMappings ["foo-bar", "other"])
      ["use foo_bar::x;"] :=
  (c4_underscore_import_marks_used ["foo-bar", "other"] (by decide) (by decide)
    ["use foo_bar::x;"] (by decide) []).1

/-! ### Claim C7

`main` iterates the dependency `HashMap` to print the report.  A Rust
`HashMap` uses a freshly seeded random hash state per process, so its
iteration order is not fixed by the program inputs: over an unchanged
manifest and tree, two runs agree on the used set but may print the report
entries in different orders.  The embedding makes the iteration order an
explicit parameter ranging over the permutations of the dependency list. -/

/-- A sample dependency used in the C7 statements. -/
def depAlpha : String × DependencyInfo := ("alpha", ⟨"1.0.0", []⟩)

/-- A sample dependency used in the C7 statements. -/
def depBeta : String × DependencyInfo := ("beta", ⟨"2.0.0", []⟩)

/-- A sample dependency used in the C7 statements. -/
def depGamma : String × DependencyInfo := ("gamma", ⟨"3.0", []⟩)

/-- C7: counterexample — two iteration orders of the same two-dependency
map produce different report texts, so an unchanged manifest and tree do
not determine a unique line order. -/
theorem c7_counterexample :
    [depAlpha, depBeta].Perm [depBeta, depAlpha] ∧
    reportLines [depAlpha, depBeta] ∅ ≠ reportLines [depBeta, depAlpha] ∅ := by
  constructor
  · exact List.Perm.swap depBeta depAlpha []
  · decide

/-- C7 (amended): over an unchanged manifest and tree — dependency-map
iteration orders and file-visit orders may differ between runs only by a
permutation — the two runs produce an equal used set, and reports with the
same entries and the same lines up to the order of the per-dependency
blocks. -/
theorem c7_rerun_stable (deps1 deps2 : List (String × DependencyInfo))
    (nm : List (String × String)) (texts1 texts2 : List String)
    (hd : deps1.Perm deps2) (ht : texts1.Perm texts2) :
    collectUsedTexts nm texts1 = collectUsedTexts nm texts2 ∧
    (reportEntries deps1 (collectUsedTexts nm texts1)).Perm
      (reportEntries deps2 (collectUsedTexts nm texts2)) ∧
    (reportLines deps1 (collectUsedTexts nm texts1)).Perm
      (reportLines deps2 (collectUsedTexts nm texts2)) := by
  have hu : collectUsedTexts nm texts1 = collectUsedTexts nm texts2 :=
    collectUsedTexts_perm nm ht
  have hent : (reportEntries deps1 (collectUsedTexts nm texts1)).Perm
      (reportEntries deps2 (collectUsedTexts nm texts2)) := by
    rw [hu]
    exact hd.filterMap _
  refine ⟨hu, hent, ?_⟩
  unfold reportLines
  exact List.Perm.append_left _ (List.Perm.flatMap_right entryLines hent)

/-- Witness for the amended C7 at a concrete manifest and tree. -/
theorem c7_rerun_stable_witness :
    collectUsedTexts [] ["lazy_static!\x7b", "use alpha::x;"]
      = collectUsedTexts [] ["use alpha::x;", "lazy_static!\x7b"] ∧
    (reportLines [depAlpha, depGamma]
        (collectUsedTexts [] ["lazy_static!\x7b", "use alpha::x;"])).Perm
      (reportLines [depGamma, depAlpha]
        (collectUsedTexts [] ["use alpha::x;", "lazy_static!\x7b"])) := by
  have h := c7_rerun_stable [depAlpha, depGamma] [depGamma, depAlpha]
    [] ["lazy_static!\x7b", "use alpha::x;"] ["use alpha::x;", "lazy_static!\x7b"]
    (List.Perm.swap depGamma depAlpha [])
    (List.Perm.swap "use alpha::x;" "lazy_static!\x7b" [])
  exact ⟨h.1, h.2.2⟩

/-! ### Claim C8

The error behaviour of `main` (lines 6–32): metadata retrieval and the
`root_package` lookup, directory traversal, and per-file reads are all
fail-fast via `?`; every `println!` comes after the whole scan loop.  The
environment is modelled explicitly: the metadata result, and the walk as a
list of items that are either traversal errors or files (with their `.rs`
flag and read result — the read is only attempted for `.rs` files, exactly
as in the code). -/

inductive WalkItem : Type where
  | entryErr : WalkItem
  | file : Bool → Except String String → WalkItem

/-- An item the collection loop gets through without an early return. -/
def goodItem : WalkItem → Bool
  | WalkItem.entryErr => false
  | WalkItem.file isRs c =>
    !isRs || (match c with | Except.ok _ => true | Except.error _ => false)

/-- `Except.isOk` spelled out for the metadata result. -/
def exceptOk {α β : Type} : Except α β → Bool
  | Except.ok _ => true
  | Except.error _ => false

/-- The scan loop of `main` (lines 21–28) with its `?` early returns:
`none` models the non-zero abort. -/
def collectUsed (nm : List (String × String)) :
    List WalkItem → Finset String → Option (Finset String)
  | [], u => some u
  | WalkItem.entryErr :: _, _ => none
  | WalkItem.file isRs c :: rest, u =>
    if isRs then
      match c with
      | Except.error _ => none
      | Except.ok content => collectUsed nm rest (scan_for_usage content u nm)
    else collectUsed nm rest u

/-- Outcome of a run: exit status plus everything printed. -/
inductive RunOutcome : Type where
  | success : List String → RunOutcome
  | failure : List String → RunOutcome
deriving DecidableEq

/-- `main` (lines 6–56): metadata, mapping construction, scan loop, report.
All printing happens after the loop, so a failed run prints nothing. -/
def runMain (meta : Except String (List (String × DependencyInfo)))
    (tree : List WalkItem) : RunOutcome :=
  match meta with
  | Except.error _ => RunOutcome.failure []
  | Except.ok deps =>
    match collectUsed (buildNameMappings (deps.map Prod.fst)) tree ∅ with
    | none => RunOutcome.failure []
    | some used => RunOutcome.success (reportLines deps used)

/-- All inputs readable: metadata resolves and every walk item is a good
entry whose read (if attempted) succeeds. -/
abbrev runInputsOk (meta : Except String (List (String × DependencyInfo)))
    (tree : List WalkItem) : Prop :=
  exceptOk meta = true ∧ ∀ i ∈ tree, goodItem i = true

theorem collectUsed_isSome_iff (nm : List (String × String)) :
    ∀ (tree : List WalkItem) (u : Finset String),
      (collectUsed nm tree u).isSome = true ↔ ∀ i ∈ tree, goodItem i = true := by
  intro tree
  induction tree with
  | nil => intro u; simp [collectUsed]
  | cons a rest ih =>
    intro u
    cases a with
    | entryErr => simp [collectUsed, goodItem]
    | file isRs c =>
      cases isRs with
      | false => simp [collectUsed, goodItem, ih u]
      | true =>
        cases c with
        | error e => simp [collectUsed, goodItem]
        | ok content =>
          simp [collectUsed, goodItem, ih (scan_for_usage content u nm)]

/-- C8: the run fails — with nothing printed, not even the header — exactly
when metadata retrieval, traversal or a file read fails; with readable
metadata and tree it succeeds and prints the report, however many
dependencies are flagged. -/
theorem c8_failfast_report_all_or_nothing
    (meta : Except String (List (String × DependencyInfo)))
    (tree : List WalkItem) :
    (¬ runInputsOk meta tree → runMain meta tree = RunOutcome.failure []) ∧
    (runInputsOk meta tree → ∃ out, runMain meta tree = RunOutcome.success out) := by
  constructor
  · intro hbad
    cases meta with
    | error e => simp [runMain]
    | ok deps =>
      have hnall : ¬ ∀ i ∈ tree, goodItem i = true := by
        intro hall
        exact hbad ⟨rfl, hall⟩
      cases hc : collectUsed (buildNameMappings (deps.map Prod.fst)) tree ∅ with
      | none => simp [runMain, hc]
      | some used =>
        exfalso
        apply hnall
        apply (collectUsed_isSome_iff (buildNameMappings (deps.map Prod.fst))
          tree ∅).mp
        rw [hc]
        rfl
  · intro hok
    cases meta with
    | error e =>
      have h1 := hok.1
      rw [show exceptOk (Except.error e) = false from rfl] at h1
      cases h1
    | ok deps =>
      cases hc : collectUsed (buildNameMappings (deps.map Prod.fst)) tree ∅ with
      | none =>
        exfalso
        have := (collectUsed_isSome_iff
          (buildNameMappings (deps.map Prod.fst)) tree ∅).mpr hok.2
        rw [hc] at this
        cases this
      | some used => exact ⟨reportLines deps used, by simp [runMain, hc]⟩

/-- Witness for C8: a readable run succeeds; a traversal error aborts with
no output. -/
theorem c8_failfast_report_all_or_nothing_witness :
    (∃ out, runMain (Except.ok [("dep-a", ⟨"1.0", []⟩)])
        [WalkItem.file true (Except.ok "fn main() {}")]
      = RunOutcome.success out) ∧
    runMain (Except.ok [("dep-a", ⟨"1.0", []⟩)]) [WalkItem.entryErr]
      = RunOutcome.failure [] :=
  ⟨(c8_failfast_report_all_or_nothing _ _).2 (by decide),
   (c8_failfast_report_all_or_nothing _ _).1 (by decide)⟩

end CargoDep
